import Mathlib

/-!
Verification of the bitboard / move-generation core of a chess engine.

The definitions below are shallow embeddings of the Python sources
(`BitBoard.py`, `MovementRules.py`, `Square.py`, `Constants.py`):
64-bit machine integers (`np.uint64`) are modelled as `Nat` reduced
`% 2 ^ 64` wherever overflow can occur, and 8-bit integers (`np.uint8`)
as `Nat` reduced `% 256`.  Lookup tables built with `np.fromiter` are
modelled as `List Nat` built with `List.range`/`List.map`.
-/

set_option maxHeartbeats 4000000
set_option maxRecDepth 8000

namespace ChessEngine

/-- De Bruijn constant for the 64-bit bit scans (`BitBoard.py`, `debruijn`). -/
def debruijn : Nat := 0x03f79d71b4cb0a89

/-- Lookup table for the least-significant-bit scan (`BitBoard.py`, `ls1b_lookup`). -/
def ls1b_lookup : List Nat :=
  [ 0,  1, 48,  2, 57, 49, 28,  3,
   61, 58, 50, 42, 38, 29, 17,  4,
   62, 55, 59, 36, 53, 51, 43, 22,
   45, 39, 33, 30, 24, 18, 12,  5,
   63, 47, 56, 27, 60, 41, 37, 16,
   54, 35, 52, 21, 44, 32, 23, 11,
   46, 26, 40, 15, 34, 20, 31, 10,
   25, 14, 19,  9, 13,  8,  7,  6]

/-- Lookup table for the most-significant-bit scan (`BitBoard.py`, `msb_lookup`). -/
def msb_lookup : List Nat :=
  [ 0, 47,  1, 56, 48, 27,  2, 60,
   57, 49, 41, 37, 28, 16,  3, 61,
   54, 58, 35, 52, 50, 42, 21, 44,
   38, 32, 29, 23, 17, 11,  4, 62,
   46, 55, 26, 59, 40, 36, 15, 53,
   34, 51, 20, 43, 31, 22, 10, 45,
   25, 39, 14, 33, 19, 30,  9, 24,
   13, 18,  8, 12,  7,  6,  5, 63]

/-- One step `bb |= bb >> s` of the fill-down cascade in `BitBoard.msbBitScan`. -/
def orShr (x s : Nat) : Nat := x ||| (x >>> s)

/-- The fill-down cascade of `BitBoard.msbBitScan`: `bb |= bb >> 1`,
`bb |= bb >> 2`, ..., `bb |= bb >> 32`. -/
def msbFold (bb : Nat) : Nat :=
  orShr (orShr (orShr (orShr (orShr (orShr bb 1) 2) 4) 8) 16) 32

/-- `BitBoard.msbBitScan`: OR-fold the bits downward, then De Bruijn multiply
and look up.  The multiplication is on `np.uint64`, hence the `% 2 ^ 64`. -/
def msbBitScan (bb : Nat) : Nat :=
  msb_lookup.getD (((msbFold bb * debruijn) % 2 ^ 64) >>> 58) 0

/-- `BitBoard.ls1bBitScan`: `bb & -bb` isolates the lowest set bit
(`-bb` is two's-complement negation on `np.uint64`, i.e. `(2^64 - bb) % 2^64`),
then De Bruijn multiply and look up. -/
def ls1bBitScan (bb : Nat) : Nat :=
  ls1b_lookup.getD ((((bb &&& ((2 ^ 64 - bb) % 2 ^ 64)) * debruijn) % 2 ^ 64) >>> 58) 0

/-- Fuel-indexed loop body of `BitBoard.occupiedSquares`: while `bb != 0`,
yield `ls1bBitScan bb` and clear that square via XOR with its single-bit
board (`Square.toBitBoard`, `np.uint64(1) << sqIdx`).  The Python `while`
loop is modelled with fuel; 64 units suffice for any 64-bit bitboard. -/
def occupiedSquaresAux : Nat → Nat → List Nat
  | 0, _ => []
  | fuel + 1, bb =>
    if bb = 0 then []
    else
      let k := ls1bBitScan bb
      k :: occupiedSquaresAux fuel (bb ^^^ ((1 <<< k) % 2 ^ 64))

/-- `BitBoard.occupiedSquares`, as the list of yielded square indices. -/
def occupiedSquares (bb : Nat) : List Nat := occupiedSquaresAux 64 bb

/-- Fuel-indexed loop body of `BitBoard.populationCount` (Brian Kernighan:
repeatedly clear the lowest set bit with `bb &= bb - 1`). -/
def populationCountAux : Nat → Nat → Nat
  | 0, _ => 0
  | fuel + 1, bb => if bb = 0 then 0 else populationCountAux fuel (bb &&& (bb - 1)) + 1

/-- `BitBoard.populationCount`. -/
def populationCount (bb : Nat) : Nat := populationCountAux 64 bb

/-- `Square.__str__`: `chr(idx % 8 + ord 'a') + str(idx // 8 + 1)`. -/
def squareToStr (sqIdx : Nat) : String :=
  String.mk [Char.ofNat (sqIdx % 8 + 97)] ++ Nat.repr (sqIdx / 8 + 1)

/-- `Square.getSquareFromString`: reads the first two characters,
`f = np.uint8(ord(s[0]) - ord('a'))`, `r = np.uint8(int(s[1]) - 1)`,
returns `(r << 3) | f` (all on `np.uint8`, so wrapping `% 256`).
Python raises `IndexError` for strings shorter than two characters and
`ValueError` (from `int`) when the second character is not a digit; both
failure modes are modelled as `none`.  No other validation is performed. -/
def getSquareFromString : List Char → Option Nat
  | c0 :: c1 :: _ =>
    if c1.isDigit then
      let f := (((c0.toNat : Int) - 97).emod 256).toNat
      let r := (((c1.toNat : Int) - 48 - 1).emod 256).toNat
      some (((r <<< 3) % 256) ||| f)
    else none
  | _ => none

/-- `MovementRules.FILES`: `0x0101010101010101 << i` for each file `i`. -/
def FILES : List Nat := (List.range 8).map fun i => (0x0101010101010101 <<< i) % 2 ^ 64

/-- `MovementRules.RANKS`: `0xFF << 8*i` for each rank `i`. -/
def RANKS : List Nat := (List.range 8).map fun i => (0xFF <<< (8 * i)) % 2 ^ 64

/-- `MovementRules.getKingMovesFromSquareIndex`: the eight guarded shifts.
`File.A = 0`, `File.H = 7`; `~mask` on `np.uint64` is `(2^64 - 1) ^^^ mask`. -/
def getKingMovesFromSquareIndex (i : Nat) : Nat :=
  let bb := (1 <<< i) % 2 ^ 64
  let notA := (2 ^ 64 - 1) ^^^ FILES.getD 0 0
  let notH := (2 ^ 64 - 1) ^^^ FILES.getD 7 0
  let ne := ((bb &&& notA) <<< 7) % 2 ^ 64
  let n := (bb <<< 8) % 2 ^ 64
  let nw := ((bb &&& notH) <<< 9) % 2 ^ 64
  let w := ((bb &&& notH) <<< 1) % 2 ^ 64
  let se := (bb &&& notH) >>> 7
  let s := bb >>> 8
  let sw := (bb &&& notA) >>> 9
  let e := (bb &&& notA) >>> 1
  nw ||| n ||| ne ||| e ||| se ||| s ||| sw ||| w

/-- `MovementRules.KING_MOVES`: the 64-entry precomputed king table. -/
def KING_MOVES : List Nat := (List.range 64).map getKingMovesFromSquareIndex

/-- `Constants.Color` (`WHITE = 0`, `BLACK = 1`). -/
inductive Color where
  | WHITE
  | BLACK
deriving DecidableEq

/-- `MovementRules.getNoCapturePawnMovesFromSquareIndex`: single forward
shift by 8 plus a double shift by 16 masked to the color's starting rank
(rank index 1 for White, 6 for Black).  White shifts left on `np.uint64`
(wrapping `% 2 ^ 64`, which drops pushes off the board), Black shifts right. -/
def getNoCapturePawnMovesFromSquareIndex (color : Color) (i : Nat) : Nat :=
  let shift_forward := fun (bb : Nat) (k : Nat) =>
    match color with
    | Color.WHITE => (bb <<< (8 * k)) % 2 ^ 64
    | Color.BLACK => bb >>> (8 * k)
  let starting_rank :=
    match color with
    | Color.WHITE => RANKS.getD 1 0
    | Color.BLACK => RANKS.getD 6 0
  let bb := (1 <<< i) % 2 ^ 64
  let s1 := shift_forward bb 1
  let s2 := shift_forward (bb &&& starting_rank) 2
  s1 ||| s2

/-- `MovementRules.PAWN_NO_CAPTURE`: the `(2, 64)` table, row 0 = White,
row 1 = Black (the iteration order of `Color`). -/
def PAWN_NO_CAPTURE : List (List Nat) :=
  [(List.range 64).map (getNoCapturePawnMovesFromSquareIndex Color.WHITE),
   (List.range 64).map (getNoCapturePawnMovesFromSquareIndex Color.BLACK)]

/-- `np.uint8` decrement with wraparound, used for `x - np.uint8(1)`. -/
def sub1_8 (x : Nat) : Nat := (x + 255) % 256

/-- `np.uint8` bitwise complement `~x`. -/
def not8 (x : Nat) : Nat := 255 ^^^ (x % 256)

/-- `MovementRules.compute_first_rank_moves`: left ray `x - 1`, right ray
`(~x) & ~(x - 1)` (all on `np.uint8`); each ray is truncated past its
nearest blocker, found with the 64-bit `msbBitScan`/`ls1bBitScan`. -/
def compute_first_rank_moves (i : Nat) (occ : Nat) : Nat :=
  let left_ray := fun (x : Nat) => sub1_8 x
  let right_ray := fun (x : Nat) => not8 x &&& not8 (sub1_8 x)
  let x := (1 <<< i) % 256
  let occ8 := occ % 256
  let left_attacks0 := left_ray x
  let left_blockers := left_attacks0 &&& occ8
  let left_attacks :=
    if left_blockers ≠ 0 then
      let leftmost := (1 <<< msbBitScan left_blockers) % 256
      let left_garbage := left_ray leftmost
      left_attacks0 ^^^ left_garbage
    else left_attacks0
  let right_attacks0 := right_ray x
  let right_blockers := right_attacks0 &&& occ8
  let right_attacks :=
    if right_blockers ≠ 0 then
      let rightmost := (1 <<< ls1bBitScan right_blockers) % 256
      let right_garbage := right_ray rightmost
      right_attacks0 ^^^ right_garbage
    else right_attacks0
  left_attacks ^^^ right_attacks

/-- `MovementRules.FIRST_RANK_MOVES`: the `(8, 256)` table,
`FIRST_RANK_MOVES[i][occ] = compute_first_rank_moves i occ`. -/
def FIRST_RANK_MOVES : List (List Nat) :=
  (List.range 8).map fun i => (List.range 256).map fun occ => compute_first_rank_moves i occ

/-! Specification-side definitions (independent restatements of the
properties claimed in the spec, to be compared with the code above). -/

/-- Brute-force linear scan for the lowest set bit: test bit 0, else
recurse on `bb / 2`.  Fuel-indexed; 64 units suffice below `2 ^ 64`. -/
def lowBitAux : Nat → Nat → Nat
  | 0, _ => 0
  | fuel + 1, bb => if bb % 2 = 1 then 0 else lowBitAux fuel (bb / 2) + 1

/-- Index of the lowest set bit of a nonzero 64-bit value (linear scan). -/
def lowBit (bb : Nat) : Nat := lowBitAux 64 bb

/-- Brute-force linear scan for the highest set bit: halve until < 2. -/
def highBitAux : Nat → Nat → Nat
  | 0, _ => 0
  | fuel + 1, bb => if bb < 2 then 0 else highBitAux fuel (bb / 2) + 1

/-- Index of the highest set bit of a nonzero 64-bit value (linear scan). -/
def highBit (bb : Nat) : Nat := highBitAux 64 bb

/-- Number of set bits among bit positions 0–63 (ground-truth popcount). -/
def cntBits (bb : Nat) : Nat :=
  ((Finset.range 64).filter fun j => bb.testBit j = true).card

/-- Specification of first-rank reachability: square `j` is attacked by a
slider on square `i` under occupancy `occ` iff `j ≠ i` lies on one side of
`i` and no occupied square lies strictly between `j` and `i` (so the
nearest blocker itself is reachable, squares beyond it are not). -/
def reachableSpec (i occ j : Nat) : Bool :=
  if j < i then
    (List.range 8).all fun t => !(decide (j < t) && decide (t < i) && occ.testBit t)
  else if i < j then
    (List.range 8).all fun t => !(decide (i < t) && decide (t < j) && occ.testBit t)
  else false

/-- Specification-side first-rank attack byte: union of the single-bit
boards of all reachable squares. -/
def firstRankMovesSpec (i occ : Nat) : Nat :=
  ((List.range 8).filter (reachableSpec i occ)).foldr (fun j a => (1 <<< j) ||| a) 0

/-- Specification-side pawn quiet pushes: the single forward shift by 8 in
the color's forward direction, plus the double shift by 16 exactly when
the origin square lies on the color's starting rank (rank 2 for White,
i.e. `i / 8 = 1`; rank 7 for Black, i.e. `i / 8 = 6`). -/
def pawnQuietSpec (color : Color) (i : Nat) : Nat :=
  let single :=
    match color with
    | Color.WHITE => ((1 <<< i) <<< 8) % 2 ^ 64
    | Color.BLACK => (1 <<< i) >>> 8
  let dbl :=
    match color with
    | Color.WHITE => ((1 <<< i) <<< 16) % 2 ^ 64
    | Color.BLACK => (1 <<< i) >>> 16
  let isStart :=
    match color with
    | Color.WHITE => i / 8 == 1
    | Color.BLACK => i / 8 == 6
  single ||| (if isStart then dbl else 0)

/-! Bit-arithmetic helper lemmas. -/

/-- Bit `j + 1` of `2 * x + t` (with `t ≤ 1`) is bit `j` of `x`. -/
theorem testBit_double_add (x t j : Nat) (ht : t ≤ 1) :
    (2 * x + t).testBit (j + 1) = x.testBit j := by
  rw [Nat.testBit_succ]
  have e : (2 * x + t) / 2 = x := by omega
  rw [e]

/-- Bit `j + 1` of `2 * x` is bit `j` of `x`. -/
theorem testBit_double (x j : Nat) : (2 * x).testBit (j + 1) = x.testBit j := by
  rw [Nat.testBit_succ]
  have e : 2 * x / 2 = x := by omega
  rw [e]

/-- Binary decomposition of `&&&`: the low bits `t, u ≤ 1` combine
independently of the remaining bits. -/
theorem land_bit_decomp (a c t u : Nat) (ht : t ≤ 1) (hu : u ≤ 1) :
    (2 * a + t) &&& (2 * c + u) = 2 * (a &&& c) + t * u := by
  have htu : t * u ≤ 1 := by interval_cases t <;> interval_cases u <;> decide
  apply Nat.eq_of_testBit_eq
  intro j
  cases j with
  | zero =>
    rw [Nat.testBit_land, Nat.testBit_zero, Nat.testBit_zero, Nat.testBit_zero]
    have e1 : (2 * a + t) % 2 = t := by omega
    have e2 : (2 * c + u) % 2 = u := by omega
    have e3 : (2 * (a &&& c) + t * u) % 2 = t * u := by omega
    rw [e1, e2, e3]
    interval_cases t <;> interval_cases u <;> decide
  | succ j =>
    rw [Nat.testBit_land, testBit_double_add a t j ht, testBit_double_add c u j hu,
      testBit_double_add (a &&& c) (t * u) j htu, Nat.testBit_land]

/-- Binary decomposition of `^^^`. -/
theorem xor_bit_decomp (a c t u : Nat) (ht : t ≤ 1) (hu : u ≤ 1) :
    (2 * a + t) ^^^ (2 * c + u) = 2 * (a ^^^ c) + (t ^^^ u) := by
  have htu : t ^^^ u ≤ 1 := by interval_cases t <;> interval_cases u <;> decide
  apply Nat.eq_of_testBit_eq
  intro j
  cases j with
  | zero =>
    rw [Nat.testBit_xor, Nat.testBit_zero, Nat.testBit_zero, Nat.testBit_zero]
    have e1 : (2 * a + t) % 2 = t := by omega
    have e2 : (2 * c + u) % 2 = u := by omega
    have e3 : (2 * (a ^^^ c) + (t ^^^ u)) % 2 = t ^^^ u := by omega
    rw [e1, e2, e3]
    interval_cases t <;> interval_cases u <;> decide
  | succ j =>
    rw [Nat.testBit_xor, testBit_double_add a t j ht, testBit_double_add c u j hu,
      testBit_double_add (a ^^^ c) (t ^^^ u) j htu, Nat.testBit_xor]

/-- `&&&` on doubled values. -/
theorem land_double (x y : Nat) : (2 * x) &&& (2 * y) = 2 * (x &&& y) := by
  have h := land_bit_decomp x y 0 0 (by omega) (by omega)
  simpa using h

/-- `&&&` of an odd value with a doubled value. -/
theorem land_add_one_double (x y : Nat) : (2 * x + 1) &&& (2 * y) = 2 * (x &&& y) := by
  have h := land_bit_decomp x y 1 0 (by omega) (by omega)
  simpa using h

/-- `&&&` of a doubled value with an odd value. -/
theorem land_double_add_one (x y : Nat) : (2 * x) &&& (2 * y + 1) = 2 * (x &&& y) := by
  have h := land_bit_decomp x y 0 1 (by omega) (by omega)
  simpa using h

/-- `^^^` of `2 * x + t` with a doubled value keeps the low bit `t`. -/
theorem xor_add_double (x y t : Nat) (ht : t ≤ 1) :
    (2 * x + t) ^^^ (2 * y) = 2 * (x ^^^ y) + t := by
  have h := xor_bit_decomp x y t 0 ht (by omega)
  simpa using h

/-- `^^^` of an odd value with `1` clears the low bit. -/
theorem xor_add_one_one (x : Nat) : (2 * x + 1) ^^^ 1 = 2 * x := by
  have h := xor_bit_decomp x 0 1 1 (by omega) (by omega)
  simpa using h

/-- A value and its one's complement below `2 ^ n` share no set bits. -/
theorem land_compl_sub (n : Nat) : ∀ q, q < 2 ^ n → q &&& (2 ^ n - 1 - q) = 0 := by
  induction n with
  | zero =>
    intro q hq
    interval_cases q
    decide
  | succ n ih =>
    intro q hq
    obtain ⟨a, t, rfl, ht⟩ : ∃ a t, q = 2 * a + t ∧ t ≤ 1 :=
      ⟨q / 2, q % 2, by omega, by omega⟩
    have e2 : (2 : Nat) ^ (n + 1) = 2 ^ n * 2 := Nat.pow_succ 2 n
    have key : 2 ^ (n + 1) - 1 - (2 * a + t) = 2 * (2 ^ n - 1 - a) + (1 - t) := by omega
    rw [key, land_bit_decomp a (2 ^ n - 1 - a) t (1 - t) ht (by omega), ih a (by omega)]
    have htt : t * (1 - t) = 0 := by interval_cases t <;> decide
    omega

/-- For odd `0 < bb < 2 ^ n`, `bb & (2^n - bb)` isolates exactly bit 0. -/
theorem land_neg_odd (n bb : Nat) (h0 : 0 < bb) (hlt : bb < 2 ^ n) (hodd : bb % 2 = 1) :
    bb &&& (2 ^ n - bb) = 1 := by
  have hn : n ≠ 0 := by
    rintro rfl
    simp at hlt
    omega
  obtain ⟨m, rfl⟩ : ∃ m, n = m + 1 := ⟨n - 1, by omega⟩
  have e2 : (2 : Nat) ^ (m + 1) = 2 ^ m * 2 := Nat.pow_succ 2 m
  obtain ⟨a, rfl⟩ : ∃ a, bb = 2 * a + 1 := ⟨bb / 2, by omega⟩
  have key : 2 ^ (m + 1) - (2 * a + 1) = 2 * (2 ^ m - 1 - a) + 1 := by omega
  rw [key, land_bit_decomp a (2 ^ m - 1 - a) 1 1 (by omega) (by omega),
    land_compl_sub m a (by omega)]

/-- `bb & (2^n - bb)` isolates the lowest set bit: if `k` is a set bit of
`bb` with nothing below it, the two's-complement trick returns `2 ^ k`. -/
theorem land_neg_eq_pow (k : Nat) : ∀ bb n, 0 < bb → bb < 2 ^ n →
    bb.testBit k = true → (∀ j, j < k → bb.testBit j = false) →
    bb &&& (2 ^ n - bb) = 2 ^ k := by
  induction k with
  | zero =>
    intro bb n h0 hlt hbit _
    have hodd : bb % 2 = 1 := by
      rw [Nat.testBit_zero] at hbit
      exact of_decide_eq_true hbit
    rw [Nat.pow_zero]
    exact land_neg_odd n bb h0 hlt hodd
  | succ k ih =>
    intro bb n h0 hlt hbit hmin
    have heven : bb % 2 = 0 := by
      have h := hmin 0 (Nat.succ_pos k)
      rw [Nat.testBit_zero] at h
      simpa using h
    have hn : n ≠ 0 := by
      rintro rfl
      simp at hlt
      omega
    obtain ⟨m, rfl⟩ : ∃ m, n = m + 1 := ⟨n - 1, by omega⟩
    have e2 : (2 : Nat) ^ (m + 1) = 2 ^ m * 2 := Nat.pow_succ 2 m
    obtain ⟨c, rfl⟩ : ∃ c, bb = 2 * c := ⟨bb / 2, by omega⟩
    rw [testBit_double c k] at hbit
    have hcmin : ∀ j, j < k → c.testBit j = false := by
      intro j hj
      rw [← testBit_double c j]
      exact hmin (j + 1) (by omega)
    have hrec := ih c m (by omega) (by omega) hbit hcmin
    have key : 2 ^ (m + 1) - 2 * c = 2 * (2 ^ m - c) := by omega
    rw [key, land_double c (2 ^ m - c), hrec, Nat.pow_succ]
    omega

/-- Kernighan's step: if `k` is the lowest set bit of `bb > 0`,
then `bb & (bb - 1)` clears exactly that bit. -/
theorem land_pred (k : Nat) : ∀ bb, 0 < bb →
    bb.testBit k = true → (∀ j, j < k → bb.testBit j = false) →
    bb &&& (bb - 1) = bb - 2 ^ k := by
  induction k with
  | zero =>
    intro bb h0 hbit _
    have hodd : bb % 2 = 1 := by
      rw [Nat.testBit_zero] at hbit
      exact of_decide_eq_true hbit
    obtain ⟨a, rfl⟩ : ∃ a, bb = 2 * a + 1 := ⟨bb / 2, by omega⟩
    have e : 2 * a + 1 - 1 = 2 * a := by omega
    rw [e, land_add_one_double a a, Nat.and_self]
    omega
  | succ k ih =>
    intro bb h0 hbit hmin
    have heven : bb % 2 = 0 := by
      have h := hmin 0 (Nat.succ_pos k)
      rw [Nat.testBit_zero] at h
      simpa using h
    obtain ⟨c, rfl⟩ : ∃ c, bb = 2 * c := ⟨bb / 2, by omega⟩
    rw [testBit_double c k] at hbit
    have hcmin : ∀ j, j < k → c.testBit j = false := by
      intro j hj
      rw [← testBit_double c j]
      exact hmin (j + 1) (by omega)
    have hrec := ih c (by omega) hbit hcmin
    have hge : 2 ^ k ≤ c := Nat.testBit_implies_ge hbit
    have e : 2 * c - 1 = 2 * (c - 1) + 1 := by omega
    rw [e, land_double_add_one c (c - 1), hrec, Nat.pow_succ]
    omega

/-- XOR with a set bit subtracts it. -/
theorem xor_pow_of_testBit (k : Nat) : ∀ bb, bb.testBit k = true →
    bb ^^^ 2 ^ k = bb - 2 ^ k := by
  induction k with
  | zero =>
    intro bb hbit
    have hodd : bb % 2 = 1 := by
      rw [Nat.testBit_zero] at hbit
      exact of_decide_eq_true hbit
    obtain ⟨a, rfl⟩ : ∃ a, bb = 2 * a + 1 := ⟨bb / 2, by omega⟩
    rw [Nat.pow_zero, xor_add_one_one a]
    omega
  | succ k ih =>
    intro bb hbit
    obtain ⟨a, t, rfl, ht⟩ : ∃ a t, bb = 2 * a + t ∧ t ≤ 1 :=
      ⟨bb / 2, bb % 2, by omega, by omega⟩
    rw [testBit_double_add a t k ht] at hbit
    have hge : 2 ^ k ≤ a := Nat.testBit_implies_ge hbit
    have e : (2 : Nat) ^ (k + 1) = 2 * 2 ^ k := by rw [Nat.pow_succ]; omega
    rw [e, xor_add_double a (2 ^ k) t ht, ih a hbit]
    omega

/-! Properties of the linear scans `lowBit` and `highBit`. -/

/-- `lowBitAux` finds a set bit with nothing below it. -/
theorem lowBitAux_spec : ∀ fuel bb, 0 < bb → bb < 2 ^ fuel →
    bb.testBit (lowBitAux fuel bb) = true ∧
    ∀ j, j < lowBitAux fuel bb → bb.testBit j = false := by
  intro fuel
  induction fuel with
  | zero =>
    intro bb h0 hlt
    simp at hlt
    omega
  | succ fuel ih =>
    intro bb h0 hlt
    by_cases hodd : bb % 2 = 1
    · have e : lowBitAux (fuel + 1) bb = 0 := by simp [lowBitAux, hodd]
      rw [e]
      refine ⟨?_, by omega⟩
      rw [Nat.testBit_zero]
      simp [hodd]
    · have heq : lowBitAux (fuel + 1) bb = lowBitAux fuel (bb / 2) + 1 := by
        simp [lowBitAux, hodd]
      have e2 : (2 : Nat) ^ (fuel + 1) = 2 ^ fuel * 2 := Nat.pow_succ 2 fuel
      have hrec := ih (bb / 2) (by omega) (by omega)
      rw [heq]
      constructor
      · rw [Nat.testBit_succ]
        exact hrec.1
      · intro j hj
        cases j with
        | zero =>
          rw [Nat.testBit_zero]
          simp [hodd]
        | succ j =>
          rw [Nat.testBit_succ]
          exact hrec.2 j (by omega)

/-- `highBitAux` brackets its input between consecutive powers of two. -/
theorem highBitAux_spec : ∀ fuel bb, 0 < bb → bb < 2 ^ fuel →
    2 ^ highBitAux fuel bb ≤ bb ∧ bb < 2 ^ (highBitAux fuel bb + 1) := by
  intro fuel
  induction fuel with
  | zero =>
    intro bb h0 hlt
    simp at hlt
    omega
  | succ fuel ih =>
    intro bb h0 hlt
    by_cases hsmall : bb < 2
    · have e : highBitAux (fuel + 1) bb = 0 := by simp [highBitAux, hsmall]
      rw [e]
      simp
      omega
    · have heq : highBitAux (fuel + 1) bb = highBitAux fuel (bb / 2) + 1 := by
        simp [highBitAux, hsmall]
      have e2 : (2 : Nat) ^ (fuel + 1) = 2 ^ fuel * 2 := Nat.pow_succ 2 fuel
      have hrec := ih (bb / 2) (by omega) (by omega)
      rw [heq]
      have ea : (2 : Nat) ^ (highBitAux fuel (bb / 2) + 1) =
          2 ^ highBitAux fuel (bb / 2) * 2 := Nat.pow_succ 2 _
      have eb : (2 : Nat) ^ (highBitAux fuel (bb / 2) + 1 + 1) =
          2 ^ (highBitAux fuel (bb / 2) + 1) * 2 := Nat.pow_succ 2 _
      omega

/-- A bit set at an index `k` of a 64-bit value forces `k < 64`. -/
theorem testBit_lt_64 (bb k : Nat) (h : bb < 2 ^ 64) (hbit : bb.testBit k = true) :
    k < 64 := by
  by_contra hk
  have h64 : (2 : Nat) ^ 64 ≤ 2 ^ k := Nat.pow_le_pow_right (by omega) (by omega)
  have hge := Nat.testBit_implies_ge hbit
  omega

/-- A value strictly between `2 ^ k` and `2 ^ (k + 1)` has bit `k` set. -/
theorem testBit_of_bounds (bb k : Nat) (h1 : 2 ^ k ≤ bb) (h2 : bb < 2 ^ (k + 1)) :
    bb.testBit k = true := by
  rw [Nat.testBit_to_div_mod]
  have hpos : 0 < 2 ^ k := Nat.pos_pow_of_pos k (by omega)
  have ha : 1 ≤ bb / 2 ^ k := (Nat.le_div_iff_mul_le hpos).2 (by omega)
  have e2 : (2 : Nat) ^ (k + 1) = 2 ^ k * 2 := Nat.pow_succ 2 k
  have hb : bb / 2 ^ k < 2 := (Nat.div_lt_iff_lt_mul hpos).2 (by omega)
  have e : bb / 2 ^ k = 1 := by omega
  rw [e]
  decide

/-! Correctness of the De Bruijn bit scans. -/

/-- The De Bruijn multiply-shift-lookup is exact on all 64 isolated bits. -/
theorem ls1b_table_correct : ∀ k, k < 64 →
    ls1b_lookup.getD (((2 ^ k * debruijn) % 2 ^ 64) >>> 58) 0 = k := by decide

/-- The MSB De Bruijn lookup is exact on all 64 fill-down masks. -/
theorem msb_table_correct : ∀ h, h < 64 →
    msb_lookup.getD ((((2 ^ (h + 1) - 1) * debruijn) % 2 ^ 64) >>> 58) 0 = h := by decide

/-- On a nonzero 64-bit value, `ls1bBitScan` returns the linear-scan
lowest set bit. -/
theorem ls1bBitScan_eq_lowBit (bb : Nat) (h0 : 0 < bb) (h : bb < 2 ^ 64) :
    ls1bBitScan bb = lowBit bb := by
  obtain ⟨hbit, hmin⟩ := lowBitAux_spec 64 bb h0 h
  have hk64 : lowBit bb < 64 := testBit_lt_64 bb (lowBit bb) h hbit
  have hmod : (2 ^ 64 - bb) % 2 ^ 64 = 2 ^ 64 - bb := Nat.mod_eq_of_lt (by omega)
  have hiso : bb &&& (2 ^ 64 - bb) = 2 ^ lowBit bb :=
    land_neg_eq_pow (lowBit bb) bb 64 h0 h hbit hmin
  unfold ls1bBitScan
  rw [hmod, hiso]
  exact ls1b_table_correct (lowBit bb) hk64

/-- One fill-down step in terms of `testBit`. -/
theorem orShr_testBit (x s j : Nat) :
    (orShr x s).testBit j = (x.testBit j || x.testBit (j + s)) := by
  rw [orShr, Nat.testBit_lor, Nat.testBit_shiftRight, Nat.add_comm s j]

/-- Doubling step for the fill-down cascade: if `x` covers windows of
width `m` of the bits of `bb`, then `x ||| (x >>> m)` covers width `2m`. -/
theorem orShr_window {bb x m : Nat}
    (hx : ∀ j, x.testBit j = true ↔ ∃ d, d < m ∧ bb.testBit (j + d) = true) :
    ∀ j, (orShr x m).testBit j = true ↔ ∃ d, d < 2 * m ∧ bb.testBit (j + d) = true := by
  intro j
  rw [orShr_testBit, Bool.or_eq_true, hx j, hx (j + m)]
  constructor
  · rintro (⟨d, hd, hbit⟩ | ⟨d, hd, hbit⟩)
    · exact ⟨d, by omega, hbit⟩
    · refine ⟨m + d, by omega, ?_⟩
      rwa [← Nat.add_assoc]
  · rintro ⟨d, hd, hbit⟩
    by_cases hdm : d < m
    · exact Or.inl ⟨d, hdm, hbit⟩
    · refine Or.inr ⟨d - m, by omega, ?_⟩
      have e : j + m + (d - m) = j + d := by omega
      rwa [e]

/-- The full cascade covers 64-bit windows: bit `j` of `msbFold bb` is set
iff some bit of `bb` in positions `j .. j + 63` is set. -/
theorem msbFold_testBit (bb : Nat) :
    ∀ j, (msbFold bb).testBit j = true ↔ ∃ d, d < 64 ∧ bb.testBit (j + d) = true := by
  have h1 : ∀ j, bb.testBit j = true ↔ ∃ d, d < 1 ∧ bb.testBit (j + d) = true := by
    intro j
    constructor
    · intro hj
      exact ⟨0, by omega, by simpa using hj⟩
    · rintro ⟨d, hd, hbit⟩
      obtain rfl : d = 0 := by omega
      simpa using hbit
  have h2 : ∀ j, (orShr bb 1).testBit j = true ↔
      ∃ d, d < 2 ∧ bb.testBit (j + d) = true := by simpa using orShr_window h1
  have h4 : ∀ j, (orShr (orShr bb 1) 2).testBit j = true ↔
      ∃ d, d < 4 ∧ bb.testBit (j + d) = true := by simpa using orShr_window h2
  have h8 : ∀ j, (orShr (orShr (orShr bb 1) 2) 4).testBit j = true ↔
      ∃ d, d < 8 ∧ bb.testBit (j + d) = true := by simpa using orShr_window h4
  have h16 : ∀ j, (orShr (orShr (orShr (orShr bb 1) 2) 4) 8).testBit j = true ↔
      ∃ d, d < 16 ∧ bb.testBit (j + d) = true := by simpa using orShr_window h8
  have h32 : ∀ j, (orShr (orShr (orShr (orShr (orShr bb 1) 2) 4) 8) 16).testBit j = true ↔
      ∃ d, d < 32 ∧ bb.testBit (j + d) = true := by simpa using orShr_window h16
  have h64 := orShr_window h32
  intro j
  rw [msbFold]
  simpa using h64 j

/-- On a nonzero 64-bit value the fill-down cascade produces the all-ones
mask up to and including the highest set bit. -/
theorem msbFold_eq (bb : Nat) (h0 : 0 < bb) (h : bb < 2 ^ 64) :
    msbFold bb = 2 ^ (highBit bb + 1) - 1 := by
  obtain ⟨hle, hlt⟩ := highBitAux_spec 64 bb h0 h
  rw [show highBitAux 64 bb = highBit bb from rfl] at hle hlt
  have hbit : bb.testBit (highBit bb) = true := testBit_of_bounds bb (highBit bb) hle hlt
  have hb64 : highBit bb < 64 := testBit_lt_64 bb (highBit bb) h hbit
  apply Nat.eq_of_testBit_eq
  intro j
  rw [Nat.testBit_two_pow_sub_one]
  rcases le_or_lt j (highBit bb) with hj | hj
  · have hcov : (msbFold bb).testBit j = true := by
      rw [msbFold_testBit bb j]
      refine ⟨highBit bb - j, by omega, ?_⟩
      have e : j + (highBit bb - j) = highBit bb := by omega
      rwa [e]
    rw [hcov]
    simp
    omega
  · have hcov : (msbFold bb).testBit j = false := by
      cases hc : (msbFold bb).testBit j with
      | false => rfl
      | true =>
        obtain ⟨d, _, hbitd⟩ := (msbFold_testBit bb j).1 hc
        have hged := Nat.testBit_implies_ge hbitd
        have hup : (2 : Nat) ^ (highBit bb + 1) ≤ 2 ^ (j + d) :=
          Nat.pow_le_pow_right (by omega) (by omega)
        omega
    rw [hcov]
    simp
    omega

/-- On a nonzero 64-bit value, `msbBitScan` returns the linear-scan
highest set bit. -/
theorem msbBitScan_eq_highBit (bb : Nat) (h0 : 0 < bb) (h : bb < 2 ^ 64) :
    msbBitScan bb = highBit bb := by
  obtain ⟨hle, hlt⟩ := highBitAux_spec 64 bb h0 h
  rw [show highBitAux 64 bb = highBit bb from rfl] at hle hlt
  have hbit : bb.testBit (highBit bb) = true := testBit_of_bounds bb (highBit bb) hle hlt
  have hb64 : highBit bb < 64 := testBit_lt_64 bb (highBit bb) h hbit
  unfold msbBitScan
  rw [msbFold_eq bb h0 h]
  exact msb_table_correct (highBit bb) hb64

/-! Popcount and occupied-squares enumeration. -/

/-- Characterization of `ls1bBitScan` on a nonzero 64-bit value: it
returns a set bit with nothing below it. -/
theorem ls1bBitScan_spec (bb : Nat) (h0 : 0 < bb) (h : bb < 2 ^ 64) :
    bb.testBit (ls1bBitScan bb) = true ∧
    ∀ j, j < ls1bBitScan bb → bb.testBit j = false := by
  rw [ls1bBitScan_eq_lowBit bb h0 h]
  exact lowBitAux_spec 64 bb h0 h

/-- `cntBits` of zero. -/
theorem cntBits_zero : cntBits 0 = 0 := by decide

/-- `cntBits` never exceeds 64. -/
theorem cntBits_le (bb : Nat) : cntBits bb ≤ 64 := by
  have h := Finset.card_filter_le (Finset.range 64) fun j => bb.testBit j = true
  simpa [cntBits] using h

/-- A 64-bit value with no set bit among positions 0–63 is zero. -/
theorem eq_zero_of_cntBits_zero (bb : Nat) (h : bb < 2 ^ 64) (hc : cntBits bb = 0) :
    bb = 0 := by
  by_contra h0
  obtain ⟨hbit, _⟩ := lowBitAux_spec 64 bb (by omega) h
  have hk64 : lowBitAux 64 bb < 64 := testBit_lt_64 bb (lowBitAux 64 bb) h hbit
  have hmem : lowBitAux 64 bb ∈
      (Finset.range 64).filter fun j => bb.testBit j = true :=
    Finset.mem_filter.2 ⟨Finset.mem_range.2 hk64, hbit⟩
  have hpos : 0 < cntBits bb := Finset.card_pos.2 ⟨_, hmem⟩
  omega

/-- Clearing a set bit decrements `cntBits`. -/
theorem cntBits_xor_pow (bb k : Nat) (hk : k < 64) (hbit : bb.testBit k = true) :
    cntBits (bb ^^^ 2 ^ k) = cntBits bb - 1 := by
  have hmem : k ∈ (Finset.range 64).filter (fun j => bb.testBit j = true) :=
    Finset.mem_filter.2 ⟨Finset.mem_range.2 hk, hbit⟩
  have hset : ((Finset.range 64).filter fun j => (bb ^^^ 2 ^ k).testBit j = true)
      = ((Finset.range 64).filter fun j => bb.testBit j = true).erase k := by
    ext j
    simp only [Finset.mem_erase, Finset.mem_filter, Finset.mem_range,
      Nat.testBit_xor, Nat.testBit_two_pow]
    by_cases hj : j = k
    · subst hj
      simp [hbit]
    · have hkj : (k = j) = False := by
        simp [Ne.symm hj]
      simp only [hkj, decide_False, Bool.xor_false]
      constructor
      · rintro ⟨h1, h2⟩
        exact ⟨hj, h1, h2⟩
      · rintro ⟨_, h1, h2⟩
        exact ⟨h1, h2⟩
  simp only [cntBits]
  rw [hset, Finset.card_erase_of_mem hmem]

/-- `cntBits` is positive when some bit below 64 is set. -/
theorem cntBits_pos (bb k : Nat) (hk : k < 64) (hbit : bb.testBit k = true) :
    1 ≤ cntBits bb := by
  have hmem : k ∈ (Finset.range 64).filter fun j => bb.testBit j = true :=
    Finset.mem_filter.2 ⟨Finset.mem_range.2 hk, hbit⟩
  have hpos : 0 < cntBits bb := Finset.card_pos.2 ⟨_, hmem⟩
  omega

/-- Bits of `bb ^^^ 2 ^ k` away from `k` agree with `bb`. -/
theorem testBit_xor_pow_other (bb k j : Nat) (hj : j ≠ k) :
    (bb ^^^ 2 ^ k).testBit j = bb.testBit j := by
  rw [Nat.testBit_xor, Nat.testBit_two_pow]
  simp [Ne.symm hj]

/-- Bit `k` of `bb ^^^ 2 ^ k` is cleared when it was set in `bb`. -/
theorem testBit_xor_pow_self (bb k : Nat) (hbit : bb.testBit k = true) :
    (bb ^^^ 2 ^ k).testBit k = false := by
  rw [Nat.testBit_xor, Nat.testBit_two_pow]
  simp [hbit]

/-- The Kernighan loop computes `cntBits` given enough fuel. -/
theorem populationCountAux_spec : ∀ fuel bb, bb < 2 ^ 64 → cntBits bb ≤ fuel →
    populationCountAux fuel bb = cntBits bb := by
  intro fuel
  induction fuel with
  | zero =>
    intro bb _ hc
    rw [populationCountAux]
    omega
  | succ fuel ih =>
    intro bb h hc
    by_cases hbb : bb = 0
    · subst hbb
      rw [populationCountAux]
      simp [cntBits_zero]
    · obtain ⟨hbit, hmin⟩ := lowBitAux_spec 64 bb (by omega) h
      have hk64 : lowBitAux 64 bb < 64 := testBit_lt_64 bb _ h hbit
      have hker : bb &&& (bb - 1) = bb - 2 ^ lowBitAux 64 bb :=
        land_pred (lowBitAux 64 bb) bb (by omega) hbit hmin
      have hxor : bb ^^^ 2 ^ lowBitAux 64 bb = bb - 2 ^ lowBitAux 64 bb :=
        xor_pow_of_testBit (lowBitAux 64 bb) bb hbit
      have hcnt : cntBits (bb - 2 ^ lowBitAux 64 bb) = cntBits bb - 1 := by
        rw [← hxor]
        exact cntBits_xor_pow bb _ hk64 hbit
      have hpos : 1 ≤ cntBits bb := cntBits_pos bb _ hk64 hbit
      have hlt : bb - 2 ^ lowBitAux 64 bb < 2 ^ 64 :=
        Nat.lt_of_le_of_lt (Nat.sub_le bb (2 ^ lowBitAux 64 bb)) h
      have hcle : cntBits (bb - 2 ^ lowBitAux 64 bb) ≤ fuel := by omega
      rw [populationCountAux]
      simp only [hbb, if_false]
      rw [hker, ih (bb - 2 ^ lowBitAux 64 bb) hlt hcle, hcnt]
      omega

/-- `populationCount` equals the ground-truth bit count on 64-bit values. -/
theorem populationCount_eq_cntBits (bb : Nat) (h : bb < 2 ^ 64) :
    populationCount bb = cntBits bb :=
  populationCountAux_spec 64 bb h (cntBits_le bb)

/-- Master lemma for `occupiedSquaresAux`: with enough fuel the loop
yields exactly the set bits, in strictly increasing order, and their
single-bit boards OR back to the input. -/
theorem occupiedSquaresAux_spec : ∀ fuel bb, bb < 2 ^ 64 → cntBits bb ≤ fuel →
    (occupiedSquaresAux fuel bb).length = cntBits bb ∧
    (∀ x ∈ occupiedSquaresAux fuel bb, bb.testBit x = true) ∧
    (occupiedSquaresAux fuel bb).Pairwise (· < ·) ∧
    (occupiedSquaresAux fuel bb).foldr (fun x a => ((1 <<< x) % 2 ^ 64) ||| a) 0 = bb := by
  intro fuel
  induction fuel with
  | zero =>
    intro bb h hc
    have hbb : bb = 0 := eq_zero_of_cntBits_zero bb h (by omega)
    subst hbb
    refine ⟨?_, by simp [occupiedSquaresAux], by simp [occupiedSquaresAux], ?_⟩
    · rw [occupiedSquaresAux]
      simp [cntBits_zero]
    · rw [occupiedSquaresAux]
      rfl
  | succ fuel ih =>
    intro bb h hc
    by_cases hbb : bb = 0
    · subst hbb
      refine ⟨?_, ?_, ?_, ?_⟩ <;> simp [occupiedSquaresAux, cntBits_zero]
    · obtain ⟨hbit, hmin⟩ := ls1bBitScan_spec bb (by omega) h
      have hk64 : ls1bBitScan bb < 64 := testBit_lt_64 bb _ h hbit
      have hpow_lt : (2 : Nat) ^ ls1bBitScan bb < 2 ^ 64 :=
        Nat.pow_lt_pow_right (by omega) hk64
      have hshift : (1 <<< ls1bBitScan bb) % 2 ^ 64 = 2 ^ ls1bBitScan bb := by
        rw [Nat.shiftLeft_eq, Nat.one_mul]
        exact Nat.mod_eq_of_lt hpow_lt
      have hxor : bb ^^^ 2 ^ ls1bBitScan bb = bb - 2 ^ ls1bBitScan bb :=
        xor_pow_of_testBit (ls1bBitScan bb) bb hbit
      have hcnt : cntBits (bb ^^^ 2 ^ ls1bBitScan bb) = cntBits bb - 1 :=
        cntBits_xor_pow bb _ hk64 hbit
      have hpos : 1 ≤ cntBits bb := cntBits_pos bb _ hk64 hbit
      have hlt : bb ^^^ 2 ^ ls1bBitScan bb < 2 ^ 64 := by
        rw [hxor]
        omega
      have hunfold : occupiedSquaresAux (fuel + 1) bb =
          ls1bBitScan bb :: occupiedSquaresAux fuel (bb ^^^ 2 ^ ls1bBitScan bb) := by
        rw [occupiedSquaresAux]
        simp only [hbb, if_false, hshift]
      obtain ⟨hlen, hmem, hpair, hfold⟩ :=
        ih (bb ^^^ 2 ^ ls1bBitScan bb) hlt (by omega)
      have hmem_gt : ∀ x ∈ occupiedSquaresAux fuel (bb ^^^ 2 ^ ls1bBitScan bb),
          ls1bBitScan bb < x := by
        intro x hx
        have hxbit := hmem x hx
        rcases Nat.lt_trichotomy x (ls1bBitScan bb) with hlt' | heq | hgt
        · rw [testBit_xor_pow_other bb _ x (by omega)] at hxbit
          rw [hmin x hlt'] at hxbit
          cases hxbit
        · subst heq
          rw [testBit_xor_pow_self bb _ hbit] at hxbit
          cases hxbit
        · exact hgt
      refine ⟨?_, ?_, ?_, ?_⟩
      · rw [hunfold, List.length_cons, hlen]
        omega
      · intro x hx
        rw [hunfold] at hx
        rcases List.mem_cons.1 hx with rfl | hx'
        · exact hbit
        · have hxbit := hmem x hx'
          have hne : x ≠ ls1bBitScan bb := by
            intro he
            subst he
            rw [testBit_xor_pow_self bb _ hbit] at hxbit
            cases hxbit
          rw [testBit_xor_pow_other bb _ x hne] at hxbit
          exact hxbit
      · rw [hunfold]
        exact List.pairwise_cons.2 ⟨hmem_gt, hpair⟩
      · rw [hunfold, List.foldr_cons, hfold, hshift]
        apply Nat.eq_of_testBit_eq
        intro j
        rw [Nat.testBit_lor, Nat.testBit_two_pow]
        by_cases hj : j = ls1bBitScan bb
        · subst hj
          simp [hbit]
        · rw [testBit_xor_pow_other bb _ j hj]
          simp [Ne.symm hj]

/-! Claim theorems. -/

/-- Claim C1 (counterexample): contrary to the claim, the first-rank
entry for mover 3 under occupancy `0b00010001` is not `0b00010110`:
the nearest left blocker sits at position 0 and is itself part of the
attack set, so bit 0 is included. -/
theorem C1_counterexample :
    ¬ compute_first_rank_moves 3 0b00010001 = 0b00010110 := by decide

/-- Claim C1 (amended): the first-rank entry for mover 3 under occupancy
`0b00010001` is the attack set `{0, 1, 2, 4}`, i.e. `0b00010111`, both as
computed by `compute_first_rank_moves` and as stored in
`FIRST_RANK_MOVES[3][0b00010001]`. -/
theorem C1_amended :
    compute_first_rank_moves 3 0b00010001 = 0b00010111 ∧
    (FIRST_RANK_MOVES.getD 3 []).getD 0b00010001 0 = 0b00010111 := by decide

/-- Claim C2 (counterexample): contrary to the claim, `ls1bBitScan` and
`msbBitScan` do not raise any error on the zero bitboard — no
`EmptyBitboardScan` exists anywhere in the code — they silently return
the garbage value `0` (the lookup-table entry at index 0). -/
theorem C2_counterexample : ls1bBitScan 0 = 0 ∧ msbBitScan 0 = 0 := by decide

/-- Claim C2 (amended): on the zero bitboard both bit scans silently
return 0, which collides with the legitimate answer for `bb = 1`, so the
empty-board case is indistinguishable from a set bit 0; the nonzero
precondition is documented in a comment but never enforced. -/
theorem C2_amended :
    ls1bBitScan 0 = 0 ∧ msbBitScan 0 = 0 ∧ ls1bBitScan 1 = 0 ∧ msbBitScan 1 = 0 := by
  decide

/-- Claim C3: for every mover position `i < 8` and occupancy byte
`occ < 256`, `compute_first_rank_moves i occ` equals the union of the
left and right rays truncated at (and including) the nearest blocker on
each side, and the result never contains the mover's own bit `i`. -/
theorem C3_first_rank_spec : ∀ i, i < 8 → ∀ occ, occ < 256 →
    compute_first_rank_moves i occ = firstRankMovesSpec i occ ∧
    (compute_first_rank_moves i occ).testBit i = false := by decide

/-- Witness for C3 at `i = 3`, `occ = 0b00010001`. -/
theorem C3_witness :
    3 < 8 ∧ 0b00010001 < 256 ∧
    (compute_first_rank_moves 3 0b00010001 = firstRankMovesSpec 3 0b00010001 ∧
     (compute_first_rank_moves 3 0b00010001).testBit 3 = false) :=
  ⟨by decide, by decide, C3_first_rank_spec 3 (by decide) 0b00010001 (by decide)⟩

/-- Claim C6: the precomputed king table clips at board edges with no
file wraparound: `KING_MOVES[27]` (d4) is exactly the eight neighbours
{c3, d3, e3, c4, e4, c5, d5, e5} = bits {18, 19, 20, 26, 28, 34, 35, 36},
and `KING_MOVES[0]` (a1) is exactly {b1, a2, b2} = bits {1, 8, 9}. -/
theorem C6_king_moves_edges :
    KING_MOVES.getD 27 0 =
      ((1 <<< 18) ||| (1 <<< 19) ||| (1 <<< 20) ||| (1 <<< 26) ||| (1 <<< 28) |||
        (1 <<< 34) ||| (1 <<< 35) ||| (1 <<< 36)) ∧
    KING_MOVES.getD 0 0 = ((1 <<< 8) ||| (1 <<< 1) ||| (1 <<< 9)) := by decide

/-- Claim C7: for each color and square `i < 64`, the pawn quiet-push
table holds the single forward push (shift by 8 in the color's forward
direction) plus the double push (shift by 16) exactly when `i` lies on
the color's starting rank; the entry is a pure function of color and
square, with no occupancy input at all. -/
theorem C7_pawn_quiet_table : ∀ i, i < 64 →
    (PAWN_NO_CAPTURE.getD 0 []).getD i 0 = pawnQuietSpec Color.WHITE i ∧
    (PAWN_NO_CAPTURE.getD 1 []).getD i 0 = pawnQuietSpec Color.BLACK i := by decide

/-- Witness for C7 at `i = 8` (a2, a White starting-rank square). -/
theorem C7_witness :
    8 < 64 ∧
    ((PAWN_NO_CAPTURE.getD 0 []).getD 8 0 = pawnQuietSpec Color.WHITE 8 ∧
     (PAWN_NO_CAPTURE.getD 1 []).getD 8 0 = pawnQuietSpec Color.BLACK 8) :=
  ⟨by decide, C7_pawn_quiet_table 8 (by decide)⟩

/-- Claim C8: for each of the 64 valid algebraic labels (file letter
`'a'`–`'h'`, rank digit `'1'`–`'8'`), parsing with
`Square.getSquareFromString` and printing the resulting square with
`Square.__str__` returns the original two-character string. -/
theorem C8_roundtrip : ∀ f, f < 8 → ∀ r, r < 8 →
    (getSquareFromString [Char.ofNat (97 + f), Char.ofNat (49 + r)]).map squareToStr =
      some (String.mk [Char.ofNat (97 + f), Char.ofNat (49 + r)]) := by decide

/-- Witness for C8 at the label "a1". -/
theorem C8_witness :
    0 < 8 ∧
    (getSquareFromString [Char.ofNat 97, Char.ofNat 49]).map squareToStr =
      some (String.mk [Char.ofNat 97, Char.ofNat 49]) :=
  ⟨by decide, C8_roundtrip 0 (by decide) 0 (by decide)⟩

/-- Claim C9 (counterexample): contrary to the claim, the invalid label
"a9" (rank digit out of the `'1'`–`'8'` range) is not rejected at all:
`Square.getSquareFromString` raises nothing and happily returns the
out-of-board index 64.  No `MalformedNotation` exists in the code. -/
theorem C9_counterexample : getSquareFromString ['a', '9'] = some 64 := by decide

/-- Claim C9 (amended): parsing performs no pattern validation and never
raises a `MalformedNotation` (no such error exists in the code).  All 64
valid labels parse to their LERF index without error.  More generally,
every two-character string whose first character is a lowercase ASCII
letter `'a'`–`'z'` and whose second character is an ASCII digit
`'1'`–`'9'` parses without error to `((digit - 1) << 3) | (letter - 'a')`
on `np.uint8` — including out-of-range labels such as "a9" (index 64) or
"i5".  The failures that do occur are not a `MalformedNotation`: a
two-character string whose second character is an ASCII non-digit fails
inside `int()` (Python `ValueError`), and a string shorter than two
characters fails on indexing (`IndexError`).  (Non-ASCII characters,
the digit `'0'`, and first characters outside `'a'`–`'z'` are out of
scope here: there Python/NumPy behavior is version- or locale-dependent.) -/
theorem C9_amended :
    (∀ f, f < 8 → ∀ r, r < 8 →
      getSquareFromString [Char.ofNat (97 + f), Char.ofNat (49 + r)] = some (8 * r + f)) ∧
    (∀ a, a < 26 → ∀ d, d < 9 →
      getSquareFromString [Char.ofNat (97 + a), Char.ofNat (49 + d)] =
        some (((d <<< 3) % 256) ||| a)) ∧
    (∀ c0 c1 : Char, c1.toNat < 128 → c1.isDigit = false →
      getSquareFromString [c0, c1] = none) ∧
    (∀ c0 : Char, getSquareFromString [c0] = none) ∧
    getSquareFromString [] = none := by
  refine ⟨by decide, by decide, ?_, fun c0 => rfl, rfl⟩
  intro c0 c1 _ hdig
  simp [getSquareFromString, hdig]

/-- Witness for C9 (amended) at the valid label "a1" and at the invalid
digit-second-character label "i5" (= index 40, no error). -/
theorem C9_witness :
    0 < 8 ∧ getSquareFromString [Char.ofNat 97, Char.ofNat 49] = some 0 ∧
    8 < 26 ∧ getSquareFromString [Char.ofNat 105, Char.ofNat 53] = some 40 :=
  ⟨by decide, C9_amended.1 0 (by decide) 0 (by decide), by decide,
    C9_amended.2.1 8 (by decide) 4 (by decide)⟩

/-- Helper for C10: toggling the occupancy bit at the mover's own
position never changes the computed first-rank attack byte. -/
theorem compute_first_rank_moves_toggle : ∀ i, i < 8 → ∀ occ, occ < 256 →
    compute_first_rank_moves i occ = compute_first_rank_moves i (occ ^^^ (1 <<< i)) := by
  decide

/-- Claim C10: for every mover position `i < 8` and occupancy bytes
`occ1, occ2 < 256` that agree on every bit other than `i`, the computed
first-rank attack bytes coincide: the occupancy bit at the mover's own
square never influences the result. -/
theorem C10_mover_bit_independent : ∀ i, i < 8 → ∀ occ1, occ1 < 256 → ∀ occ2, occ2 < 256 →
    (∀ j, j ≠ i → occ1.testBit j = occ2.testBit j) →
    compute_first_rank_moves i occ1 = compute_first_rank_moves i occ2 := by
  intro i hi occ1 h1 occ2 h2 hagree
  by_cases hsame : occ1.testBit i = occ2.testBit i
  · have : occ1 = occ2 := by
      apply Nat.eq_of_testBit_eq
      intro j
      by_cases hj : j = i
      · subst hj; exact hsame
      · exact hagree j hj
    rw [this]
  · have h2eq : occ2 = occ1 ^^^ (1 <<< i) := by
      apply Nat.eq_of_testBit_eq
      intro j
      rw [Nat.testBit_xor, Nat.shiftLeft_eq, Nat.one_mul, Nat.testBit_two_pow]
      by_cases hj : j = i
      · subst hj
        simp only [decide_True, Bool.xor_true]
        cases hb1 : occ1.testBit j <;> cases hb2 : occ2.testBit j <;>
          simp_all
      · rw [← hagree j hj]
        simp [Ne.symm hj]
    rw [h2eq]
    exact compute_first_rank_moves_toggle i hi occ1 h1

/-- Witness for C10 at `i = 3`, `occ1 = 0`, `occ2 = 8 = 2^3`. -/
theorem C10_witness :
    3 < 8 ∧ 0 < 256 ∧ 8 < 256 ∧
    compute_first_rank_moves 3 0 = compute_first_rank_moves 3 8 :=
  ⟨by decide, by decide, by decide,
    C10_mover_bit_independent 3 (by decide) 0 (by decide) 8 (by decide)
      (by
        intro j hj
        rw [Nat.zero_testBit, show (8 : Nat) = 2 ^ 3 from rfl, Nat.testBit_two_pow]
        simp [Ne.symm hj])⟩

/-- Claim C4: for every nonzero 64-bit bitboard, `ls1bBitScan` returns
the unique index of the lowest set bit and `msbBitScan` the unique index
of the highest set bit: the returned positions are set bits of `bb` with
no set bit below (resp. above) them, and they agree with the brute-force
linear scans `lowBit` and `highBit`. -/
theorem C4_bit_scans (bb : Nat) (h0 : 0 < bb) (h : bb < 2 ^ 64) :
    (bb.testBit (ls1bBitScan bb) = true ∧
      ∀ j, j < ls1bBitScan bb → bb.testBit j = false) ∧
    (bb.testBit (msbBitScan bb) = true ∧
      ∀ j, msbBitScan bb < j → bb.testBit j = false) ∧
    ls1bBitScan bb = lowBit bb ∧ msbBitScan bb = highBit bb := by
  obtain ⟨hle, hlt⟩ := highBitAux_spec 64 bb h0 h
  rw [show highBitAux 64 bb = highBit bb from rfl] at hle hlt
  have hmsb := msbBitScan_eq_highBit bb h0 h
  refine ⟨ls1bBitScan_spec bb h0 h, ⟨?_, ?_⟩, ls1bBitScan_eq_lowBit bb h0 h, hmsb⟩
  · rw [hmsb]
    exact testBit_of_bounds bb (highBit bb) hle hlt
  · intro j hj
    rw [hmsb] at hj
    apply Nat.testBit_lt_two_pow
    calc bb < 2 ^ (highBit bb + 1) := hlt
    _ ≤ 2 ^ j := Nat.pow_le_pow_right (by omega) (by omega)

/-- Witness for C4 at `bb = 0xF000000000000000` (bits 60–63 set; the
repository's own self-test value: LS1B = 60, MSB = 63). -/
theorem C4_witness :
    0 < (0xF000000000000000 : Nat) ∧ (0xF000000000000000 : Nat) < 2 ^ 64 ∧
    ls1bBitScan 0xF000000000000000 = lowBit 0xF000000000000000 ∧
    msbBitScan 0xF000000000000000 = highBit 0xF000000000000000 ∧
    ls1bBitScan 0xF000000000000000 = 60 ∧ msbBitScan 0xF000000000000000 = 63 :=
  ⟨by decide, by decide,
    (C4_bit_scans 0xF000000000000000 (by decide) (by decide)).2.2.1,
    (C4_bit_scans 0xF000000000000000 (by decide) (by decide)).2.2.2,
    by decide, by decide⟩

/-- Claim C5: for every 64-bit bitboard, `occupiedSquares` yields exactly
`populationCount bb` squares, in strictly increasing index order, and the
bitwise OR of the single-bit boards (`1 << index` on `np.uint64`) of the
yielded squares reconstructs `bb`. -/
theorem C5_occupied_squares (bb : Nat) (h : bb < 2 ^ 64) :
    (occupiedSquares bb).length = populationCount bb ∧
    (occupiedSquares bb).Pairwise (· < ·) ∧
    (occupiedSquares bb).foldr (fun x a => ((1 <<< x) % 2 ^ 64) ||| a) 0 = bb := by
  obtain ⟨hlen, _, hpair, hfold⟩ := occupiedSquaresAux_spec 64 bb h (cntBits_le bb)
  refine ⟨?_, hpair, hfold⟩
  rw [occupiedSquares, hlen, populationCount_eq_cntBits bb h]

/-- Witness for C5 at `bb = 0xF0000F00000F0000` (the repository's own
popcount self-test value, 12 bits set). -/
theorem C5_witness :
    (0xF0000F00000F0000 : Nat) < 2 ^ 64 ∧
    ((occupiedSquares 0xF0000F00000F0000).length = populationCount 0xF0000F00000F0000 ∧
     (occupiedSquares 0xF0000F00000F0000).Pairwise (· < ·) ∧
     (occupiedSquares 0xF0000F00000F0000).foldr
       (fun x a => ((1 <<< x) % 2 ^ 64) ||| a) 0 = 0xF0000F00000F0000) :=
  ⟨by decide, C5_occupied_squares 0xF0000F00000F0000 (by decide)⟩

end ChessEngine
